import Mathlib

/-!
# Verification of the 1-D spectral CLEAN program (`main.py`)

This file gives a shallow embedding of the numerical core of `main.py`:
the direct-summation spectral estimator, the CLEAN deconvolution loop and
the beam-reconstruction convolution, with IEEE floating point modelled by
exact real arithmetic (`ℝ`/`ℂ`).  Arrays are modelled as total functions
`ℕ → ℂ` together with an explicit length, list values where the length
itself is at stake, and NumPy's integer indexing (negative wrap-around,
out-of-range as an unreachable default) is made explicit in `npIndex`.
-/

open scoped BigOperators
open scoped Classical

/-- NumPy basic integer indexing into an array `a` of length `L`:
a non-negative index `k < L` reads `a k`, a negative index `-L ≤ k < 0`
wraps to `a (k + L)`; any other index raises `IndexError` in NumPy and is
given the junk value `0` here (the bounds theorems show the CLEAN loop
never reaches it). -/
def npIndex (L : ℕ) (a : ℕ → ℂ) (k : ℤ) : ℂ :=
  if 0 ≤ k ∧ k < (L : ℤ) then a k.toNat
  else if -(L : ℤ) ≤ k ∧ k < 0 then a (k + L).toNat
  else 0

/-- NumPy's comparison order on complex values, used by `np.argmax` on a
complex array: lexicographic on the real part, then the imaginary part.
`lexGt z w` says `z` sorts strictly after `w`. -/
def lexGt (z w : ℂ) : Prop :=
  w.re < z.re ∨ (w.re = z.re ∧ w.im < z.im)

/-- Value of `np.argmax` on the first `n` entries of `f`: the scan keeps
the current best index and replaces it only on a strictly greater value,
so the first occurrence of the maximum wins, exactly as in NumPy. -/
noncomputable def npArgmaxF (f : ℕ → ℂ) : ℕ → ℕ
  | 0 => 0
  | n + 1 => if lexGt (f n) (f (npArgmaxF f n)) then n else npArgmaxF f n

/-- Center index of the spectrum grid (`c = amps.shape[0] // 2`). -/
def cIdx (M : ℕ) : ℕ := M / 2

/-- Peak index chosen by one CLEAN iteration
(`idx_max = c + np.argmax(residual[c:])`). -/
noncomputable def idxMaxOf (M : ℕ) (residual : ℕ → ℂ) : ℕ :=
  cIdx M + npArgmaxF (fun j => residual (cIdx M + j)) (M - cIdx M)

/-- PSF index for the negative-frequency coupling term
(`psf[idx_max * 2]`). -/
def couplingIdx (idx : ℕ) : ℤ := (idx : ℤ) * 2

/-- PSF index for the forward-offset lookup
(`psf[j - idx_max + (freqs.size - 1)]`, computed in Python integers). -/
def diffIdx (M idx j : ℕ) : ℤ := (j : ℤ) - (idx : ℤ) + ((M : ℤ) - 1)

/-- PSF index for the sum-offset lookup (`psf[j + idx_max]`). -/
def sumIdx (idx j : ℕ) : ℤ := (j : ℤ) + (idx : ℤ)

/-- Configuration of one CLEAN run: spectrum length `M` (`freqs.size`),
dirty spectrum `amps`, PSF of length `2M - 1`, and the loop gain. -/
structure CleanCfg where
  M : ℕ
  amps : ℕ → ℂ
  psf : ℕ → ℂ
  gain : ℝ

/-- Mutable state of the CLEAN loop: the component model, the residual
spectrum, and `halted = some i` once the degenerate-coupling `break` has
fired at iteration `i` (the `log.warning` diagnostic names that `i`). -/
structure CleanState where
  components : ℕ → ℂ
  residual : ℕ → ℂ
  halted : Option ℕ

/-- Magnitude of the PSF coupling term
(`psf_mag = np.abs(psf[idx_max * 2])`), a real scalar. -/
noncomputable def psfMagOf (cfg : CleanCfg) (residual : ℕ → ℂ) : ℝ :=
  Complex.abs (npIndex (2 * cfg.M - 1) cfg.psf (couplingIdx (idxMaxOf cfg.M residual)))

/-- Correction denominator (`temp = 1 - psf_mag**2`). -/
noncomputable def tempOf (cfg : CleanCfg) (residual : ℕ → ℂ) : ℝ :=
  1 - psfMagOf cfg residual ^ 2

/-- Real part of the corrected peak amplitude, as the code computes it:
`aRe = res_amp.real * (1 - psf_mag.real) - (res_amp.imag * psf_mag.imag)`
then `aRe /= temp`.  Because `psf_mag` is a real (float) scalar, the
attribute `psf_mag.real` is `m` itself and `psf_mag.imag` is the literal
`0` appearing below. -/
noncomputable def cleanARe (res : ℂ) (m : ℝ) : ℝ :=
  (res.re * (1 - m) - res.im * 0) / (1 - m ^ 2)

/-- Imaginary part of the corrected peak amplitude, as the code computes
it: `aIm = res_amp.imag * (1 + psf_mag.real) - (res_amp.real *
psf_mag.imag)` then `aIm /= temp`; again `psf_mag.imag` is the literal
`0`. -/
noncomputable def cleanAIm (res : ℂ) (m : ℝ) : ℝ :=
  (res.im * (1 + m) - res.re * 0) / (1 - m ^ 2)

/-- The `aRe` value one CLEAN iteration computes from the current
residual. -/
noncomputable def aReOf (cfg : CleanCfg) (residual : ℕ → ℂ) : ℝ :=
  cleanARe (residual (idxMaxOf cfg.M residual)) (psfMagOf cfg residual)

/-- The `aIm` value one CLEAN iteration computes from the current
residual. -/
noncomputable def aImOf (cfg : CleanCfg) (residual : ℕ → ℂ) : ℝ :=
  cleanAIm (residual (idxMaxOf cfg.M residual)) (psfMagOf cfg residual)

/-- Entry `j` of the subtraction vector built inside one iteration:
`w1 = psf[j - idx_max + (freqs.size - 1)]`, `w2 = psf[j + idx_max]`,
`re = aRe*(w1.real + w2.real) + aIm*(w2.imag - w1.imag)`,
`im = aRe*(w1.imag + w2.imag) + aIm*(w1.real - w2.real)`,
`sub[j] = (re + 1j*im) * gain`. -/
noncomputable def subAt (cfg : CleanCfg) (residual : ℕ → ℂ) (j : ℕ) : ℂ :=
  let idx := idxMaxOf cfg.M residual
  let w1 := npIndex (2 * cfg.M - 1) cfg.psf (diffIdx cfg.M idx j)
  let w2 := npIndex (2 * cfg.M - 1) cfg.psf (sumIdx idx j)
  let aRe := aReOf cfg residual
  let aIm := aImOf cfg residual
  (⟨aRe * (w1.re + w2.re) + aIm * (w2.im - w1.im),
    aRe * (w1.im + w2.im) + aIm * (w1.re - w2.re)⟩ : ℂ) * (cfg.gain : ℂ)

/-- The vector one iteration subtracts from the residual: zero outside
the spectrum grid, and zero on an iteration that does not run its update
(loop already broken, or `temp == 0` triggers the `break` first). -/
noncomputable def subOf (cfg : CleanCfg) (st : CleanState) : ℕ → ℂ :=
  fun j =>
    if st.halted.isSome then 0
    else if tempOf cfg st.residual = 0 then 0
    else if j < cfg.M then subAt cfg st.residual j
    else 0

/-- One iteration of the CLEAN loop body (`for i in range(num_iter)`):
find the peak, check the degenerate-coupling guard, deposit the gained
component at `idx_max` and subtract the PSF-shaped vector from the
residual.  A `break` that already happened makes the iteration a no-op. -/
noncomputable def cleanStep (cfg : CleanCfg) (i : ℕ) (st : CleanState) : CleanState :=
  if st.halted.isSome then st
  else if tempOf cfg st.residual = 0 then { st with halted := some i }
  else
    { components := fun k =>
        if k = idxMaxOf cfg.M st.residual then
          st.components k + (⟨aReOf cfg st.residual, aImOf cfg st.residual⟩ : ℂ) * (cfg.gain : ℂ)
        else st.components k,
      residual := fun j => st.residual j - subOf cfg st j,
      halted := st.halted }

/-- State after `n` CLEAN iterations, from
`clean_components = np.zeros_like(amps)` and `residual = np.copy(amps)`. -/
noncomputable def cleanRun (cfg : CleanCfg) : ℕ → CleanState
  | 0 => ⟨fun _ => 0, cfg.amps, none⟩
  | n + 1 => cleanStep cfg n (cleanRun cfg n)

/-- Modelled from the spec: the correction formula for `aRe` of §4.2
step 4 read with `psf_coupling` the complex PSF value retaining its
phase (the reading claim C1 asserts); to be compared with `cleanARe`. -/
noncomputable def specARe (res coup : ℂ) : ℝ :=
  (res.re * (1 - coup.re) - res.im * coup.im) / (1 - Complex.abs coup ^ 2)

/-- Modelled from the spec: the correction formula for `aIm` of §4.2
step 4 read with `psf_coupling` the complex PSF value retaining its
phase; to be compared with `cleanAIm`. -/
noncomputable def specAIm (res coup : ℂ) : ℝ :=
  (res.im * (1 + coup.re) - res.re * coup.im) / (1 - Complex.abs coup ^ 2)

/-- Spectrum-grid frequency `freqs[i] = (i - K) * freq_inc` for the grid
`np.arange(-num_freqs, num_freqs + 1) * freq_inc` (so `M = 2K + 1`). -/
noncomputable def freqsAt (K : ℕ) (df : ℝ) (i : ℕ) : ℝ :=
  (((i : ℤ) - (K : ℤ) : ℤ) : ℝ) * df

/-- PSF-grid frequency `freqs_psf[i] = (i - 2K) * freq_inc` for the grid
`np.arange(-num_freqs * 2, num_freqs * 2 + 1) * freq_inc` (size `2M - 1`,
same spacing, twice the range). -/
noncomputable def freqsPsfAt (K : ℕ) (df : ℝ) (i : ℕ) : ℝ :=
  (((i : ℤ) - 2 * (K : ℤ) : ℤ) : ℝ) * df

/-- One dirty-spectrum amplitude: `amps[i] = np.sum(values * np.exp(-1j *
2 * math.pi * f * times))` followed by `amps /= times.size`, written with
the code's operand order inside the exponential. -/
noncomputable def dirtyAmp (N : ℕ) (times values : ℕ → ℝ) (f : ℝ) : ℂ :=
  (∑ n ∈ Finset.range N,
      (values n : ℂ) *
        Complex.exp (-Complex.I * 2 * (Real.pi : ℂ) * (f : ℂ) * (times n : ℂ))) / (N : ℂ)

/-- One PSF amplitude: `psf[i] = np.sum(np.exp(-1j * 2 * math.pi * f *
times))` followed by `psf /= times.size` (unit weights, no `values`
factor). -/
noncomputable def psfAmp (N : ℕ) (times : ℕ → ℝ) (f : ℝ) : ℂ :=
  (∑ n ∈ Finset.range N,
      Complex.exp (-Complex.I * 2 * (Real.pi : ℂ) * (f : ℂ) * (times n : ℂ))) / (N : ℂ)

/-- The dirty spectrum over its grid: `amps[i]` at frequency `freqs[i]`. -/
noncomputable def dirtySpectrum (N K : ℕ) (df : ℝ) (times values : ℕ → ℝ) (i : ℕ) : ℂ :=
  dirtyAmp N times values (freqsAt K df i)

/-- The PSF over its doubled grid: `psf[i]` at frequency `freqs_psf[i]`. -/
noncomputable def psfSpectrum (N K : ℕ) (df : ℝ) (times : ℕ → ℝ) (i : ℕ) : ℂ :=
  psfAmp N times (freqsPsfAt K df i)

/-- Full discrete convolution, as `np.convolve(a, v)` computes it:
output length `len(a) + len(v) - 1`, entry `n` equal to
`Σ_m a[m] * v[n - m]` with out-of-range factors read as zero. -/
noncomputable def npConvolveFull (a v : List ℂ) : List ℂ :=
  (List.range (a.length + v.length - 1)).map fun n =>
    ∑ m ∈ Finset.range (n + 1), a.getD m 0 * v.getD (n - m) 0

/-- Mode `'same'` of `np.convolve`: NumPy returns the centered slice of
the full convolution of length `max(len(a), len(v))`, dropping
`(min(len(a), len(v)) - 1) / 2` entries on the left (integer division;
NumPy swaps the operands so the kernel is the shorter array, which the
symmetric formula below absorbs). -/
noncomputable def npConvolveSame (a v : List ℂ) : List ℂ :=
  ((npConvolveFull a v).drop ((min a.length v.length - 1) / 2)).take (max a.length v.length)

/-! ## Helper lemmas -/

lemma lexGt_trans {a b c : ℂ} (h1 : lexGt a b) (h2 : lexGt b c) : lexGt a c := by
  rcases h1 with h1 | ⟨h1e, h1i⟩ <;> rcases h2 with h2 | ⟨h2e, h2i⟩
  · exact Or.inl (lt_trans h2 h1)
  · exact Or.inl (h2e ▸ h1)
  · exact Or.inl (h1e ▸ h2)
  · exact Or.inr ⟨h2e.trans h1e, lt_trans h2i h1i⟩

lemma lexGt_irrefl (a : ℂ) : ¬ lexGt a a := by
  simp [lexGt]

lemma not_lexGt_re_le {z w : ℂ} (h : ¬ lexGt z w) : z.re ≤ w.re := by
  by_contra hlt
  push_neg at hlt
  exact h (Or.inl hlt)

lemma npArgmaxF_lt (f : ℕ → ℂ) : ∀ n, 1 ≤ n → npArgmaxF f n < n := by
  intro n h
  induction n with
  | zero => omega
  | succ m ih =>
    simp only [npArgmaxF]
    split
    · omega
    · rcases Nat.eq_zero_or_pos m with hm | hm
      · subst hm
        simp [npArgmaxF]
      · exact Nat.lt_succ_of_lt (ih hm)

lemma npArgmaxF_not_lexGt (f : ℕ → ℂ) :
    ∀ n k, k < n → ¬ lexGt (f k) (f (npArgmaxF f n)) := by
  intro n
  induction n with
  | zero => intro k hk; omega
  | succ m ih =>
    intro k hk
    simp only [npArgmaxF]
    split
    · rename_i hgt
      rcases Nat.lt_succ_iff_lt_or_eq.mp hk with hk' | rfl
      · intro hcon
        exact ih k hk' (lexGt_trans hcon hgt)
      · exact lexGt_irrefl _
    · rename_i hngt
      rcases Nat.lt_succ_iff_lt_or_eq.mp hk with hk' | rfl
      · exact ih k hk'
      · exact hngt

/-! ## Claims about the spectral estimator -/

/-- C5: for a sample set of size `N ≥ 1`, the estimator returns
`S[f] = (1/N) · Σ_n V[n] · exp(−2πi·f·T[n])` at every grid frequency,
and the PSF is the same formula with unit weights `V[n] = 1` over the
doubled grid at the same spacing. -/
theorem spectral_estimator_formula (N K : ℕ) (df : ℝ) (times values : ℕ → ℝ)
    (i : ℕ) (h : 1 ≤ N) :
    dirtySpectrum N K df times values i =
      (1 / (N : ℂ)) * ∑ n ∈ Finset.range N,
        (values n : ℂ) *
          Complex.exp (-(2 * (Real.pi : ℂ) * Complex.I * (freqsAt K df i : ℂ) * (times n : ℂ))) ∧
    psfSpectrum N K df times i =
      (1 / (N : ℂ)) * ∑ n ∈ Finset.range N,
        ((1 : ℝ) : ℂ) *
          Complex.exp (-(2 * (Real.pi : ℂ) * Complex.I * (freqsPsfAt K df i : ℂ) * (times n : ℂ))) := by
  constructor
  · unfold dirtySpectrum dirtyAmp
    rw [div_eq_mul_inv, ← one_div, mul_comm]
    congr 1
    refine Finset.sum_congr rfl fun n _ => ?_
    congr 1
    congr 1
    ring
  · unfold psfSpectrum psfAmp
    rw [div_eq_mul_inv, ← one_div, mul_comm]
    congr 1
    refine Finset.sum_congr rfl fun n _ => ?_
    rw [Complex.ofReal_one, one_mul]
    congr 1
    ring

/-- Witness for C5 at the concrete input `N = 1`, `K = 0`, `df = 0`,
zero sample times and values, grid index `0`. -/
theorem spectral_estimator_formula_witness :
    dirtySpectrum 1 0 0 (fun _ => 0) (fun _ => 0) 0 =
      (1 / ((1 : ℕ) : ℂ)) * ∑ n ∈ Finset.range 1,
        (((fun _ => (0 : ℝ)) n : ℝ) : ℂ) *
          Complex.exp (-(2 * (Real.pi : ℂ) * Complex.I * (freqsAt 0 0 0 : ℂ) * (((fun _ => (0 : ℝ)) n : ℝ) : ℂ))) ∧
    psfSpectrum 1 0 0 (fun _ => 0) 0 =
      (1 / ((1 : ℕ) : ℂ)) * ∑ n ∈ Finset.range 1,
        ((1 : ℝ) : ℂ) *
          Complex.exp (-(2 * (Real.pi : ℂ) * Complex.I * (freqsPsfAt 0 0 0 : ℂ) * (((fun _ => (0 : ℝ)) n : ℝ) : ℂ))) :=
  spectral_estimator_formula 1 0 0 (fun _ => 0) (fun _ => 0) 0 (by decide)

/-- C8: with all sample values equal to `1`, the dirty spectrum equals
the PSF restricted to the spectrum's smaller grid range (spectrum index
`i` matches PSF index `i + K`), exactly in real arithmetic. -/
theorem unit_values_dirty_eq_psf (N K : ℕ) (df : ℝ) (times : ℕ → ℝ)
    (i : ℕ) (h : i < 2 * K + 1) :
    dirtySpectrum N K df times (fun _ => 1) i = psfSpectrum N K df times (i + K) := by
  unfold dirtySpectrum psfSpectrum dirtyAmp psfAmp
  have hf : freqsAt K df i = freqsPsfAt K df (i + K) := by
    unfold freqsAt freqsPsfAt
    push_cast
    ring
  rw [hf]
  congr 1
  refine Finset.sum_congr rfl fun n _ => ?_
  rw [Complex.ofReal_one, one_mul]

/-- Witness for C8 at the concrete input `N = 1`, `K = 0`, `df = 0`,
zero sample times, grid index `0`. -/
theorem unit_values_dirty_eq_psf_witness :
    dirtySpectrum 1 0 0 (fun _ => 0) (fun _ => 1) 0 = psfSpectrum 1 0 0 (fun _ => 0) (0 + 0) :=
  unit_values_dirty_eq_psf 1 0 0 (fun _ => 0) 0 (by decide)

/-! ## Claims about the beam-reconstruction convolution -/

/-- Counterexample to C3 as stated: a one-entry component array convolved
in mode `'same'` with a three-entry kernel yields a three-entry output,
not a one-entry one, so the output length does not always equal the
component array length. -/
theorem convolve_same_length_cex :
    (npConvolveSame [(1 : ℂ)] [1, 1, 1]).length ≠ [(1 : ℂ)].length := by
  decide

/-- C3 amended: for nonempty inputs, the mode-`'same'` convolution
output length is `max(len(a), len(v))`; it equals the component array
length only when the kernel is not longer than the component array. -/
theorem convolve_same_length (a v : List ℂ) (ha : 1 ≤ a.length) (hv : 1 ≤ v.length) :
    (npConvolveSame a v).length = max a.length v.length := by
  unfold npConvolveSame npConvolveFull
  simp only [List.length_take, List.length_drop, List.length_map, List.length_range]
  omega

/-- Witness for the amended C3 at the concrete input `a = v = [1]`. -/
theorem convolve_same_length_witness :
    (npConvolveSame [(1 : ℂ)] [(1 : ℂ)]).length = max [(1 : ℂ)].length [(1 : ℂ)].length :=
  convolve_same_length [(1 : ℂ)] [(1 : ℂ)] (by decide) (by decide)

/-! ## Claims about the CLEAN loop -/

/-- C6: all three PSF lookups of a CLEAN iteration — the coupling index
`2·idx_max`, the difference index `j − idx_max + (M − 1)` and the sum
index `j + idx_max` — stay inside `[0, 2M − 2]`, the index range of the
PSF array of length `2M − 1`, for every output index `j` of the spectrum
grid and every peak index in the non-negative-frequency half. -/
theorem clean_psf_index_bounds (M idx j : ℕ) (hM : 1 ≤ M)
    (h1 : cIdx M ≤ idx) (h2 : idx < M) (h3 : j < M) :
    (0 ≤ couplingIdx idx ∧ couplingIdx idx ≤ 2 * (M : ℤ) - 2) ∧
    (0 ≤ diffIdx M idx j ∧ diffIdx M idx j ≤ 2 * (M : ℤ) - 2) ∧
    (0 ≤ sumIdx idx j ∧ sumIdx idx j ≤ 2 * (M : ℤ) - 2) := by
  unfold couplingIdx diffIdx sumIdx
  unfold cIdx at h1
  omega

/-- Witness for C6 at the concrete input `M = 1`, `idx = 0`, `j = 0`. -/
theorem clean_psf_index_bounds_witness :
    (0 ≤ couplingIdx 0 ∧ couplingIdx 0 ≤ 2 * ((1 : ℕ) : ℤ) - 2) ∧
    (0 ≤ diffIdx 1 0 0 ∧ diffIdx 1 0 0 ≤ 2 * ((1 : ℕ) : ℤ) - 2) ∧
    (0 ≤ sumIdx 0 0 ∧ sumIdx 0 0 ≤ 2 * ((1 : ℕ) : ℤ) - 2) :=
  clean_psf_index_bounds 1 0 0 (by decide) (by decide) (by decide) (by decide)

/-- C9: the peak index picked by a CLEAN iteration lies in the
non-negative-frequency half of the spectrum and attains the maximum real
part of the residual over that half (NumPy's lexicographic complex
maximum is in particular a maximiser of the real part). -/
theorem clean_peak_selection (M : ℕ) (residual : ℕ → ℂ) (h : 1 ≤ M) :
    cIdx M ≤ idxMaxOf M residual ∧ idxMaxOf M residual < M ∧
    ∀ j, cIdx M ≤ j → j < M → (residual j).re ≤ (residual (idxMaxOf M residual)).re := by
  have hc : cIdx M < M := by
    unfold cIdx
    omega
  have h1 : 1 ≤ M - cIdx M := by omega
  refine ⟨Nat.le_add_right _ _, ?_, ?_⟩
  · have hb := npArgmaxF_lt (fun j => residual (cIdx M + j)) (M - cIdx M) h1
    unfold idxMaxOf
    omega
  · intro j hj1 hj2
    have hk : j - cIdx M < M - cIdx M := by omega
    have hle := npArgmaxF_not_lexGt (fun j => residual (cIdx M + j)) (M - cIdx M) (j - cIdx M) hk
    have hre : (residual (cIdx M + (j - cIdx M))).re ≤
        (residual (cIdx M + npArgmaxF (fun j => residual (cIdx M + j)) (M - cIdx M))).re :=
      not_lexGt_re_le hle
    have hj : cIdx M + (j - cIdx M) = j := by omega
    rw [hj] at hre
    exact hre

/-- Witness for C9 at the concrete input `M = 1` and the all-zero
residual. -/
theorem clean_peak_selection_witness :
    cIdx 1 ≤ idxMaxOf 1 (fun _ => 0) ∧ idxMaxOf 1 (fun _ => 0) < 1 ∧
    ∀ j, cIdx 1 ≤ j → j < 1 →
      ((fun _ => (0 : ℂ)) j).re ≤ ((fun _ => (0 : ℂ)) (idxMaxOf 1 (fun _ => 0))).re :=
  clean_peak_selection 1 (fun _ => 0) (by decide)

lemma cleanStep_residual (cfg : CleanCfg) (i : ℕ) (st : CleanState) (j : ℕ) :
    (cleanStep cfg i st).residual j = st.residual j - subOf cfg st j := by
  by_cases h1 : st.halted.isSome
  · simp [cleanStep, subOf, h1]
  · by_cases h2 : tempOf cfg st.residual = 0
    · simp [cleanStep, subOf, h1, h2]
    · simp [cleanStep, h1, h2]

/-- C2: at every iteration boundary, the residual plus the sum of all
per-iteration subtraction vectors so far equals the original dirty
spectrum, pointwise and exactly, for every dirty spectrum, PSF, gain and
iteration count. -/
theorem clean_residual_accounting (cfg : CleanCfg) (n j : ℕ) :
    (cleanRun cfg n).residual j +
      ∑ k ∈ Finset.range n, subOf cfg (cleanRun cfg k) j = cfg.amps j := by
  induction n with
  | zero => simp [cleanRun]
  | succ m ih =>
    rw [Finset.sum_range_succ]
    have hstep := cleanStep_residual cfg m (cleanRun cfg m) j
    simp only [cleanRun]
    rw [hstep]
    have hring : (cleanRun cfg m).residual j - subOf cfg (cleanRun cfg m) j +
        (∑ k ∈ Finset.range m, subOf cfg (cleanRun cfg k) j + subOf cfg (cleanRun cfg m) j) =
        (cleanRun cfg m).residual j + ∑ k ∈ Finset.range m, subOf cfg (cleanRun cfg k) j := by
      ring
    rw [hring, ih]

lemma subOf_zero_gain (M : ℕ) (amps psf : ℕ → ℂ) (st : CleanState) (j : ℕ) :
    subOf ⟨M, amps, psf, 0⟩ st j = 0 := by
  unfold subOf subAt
  split
  · rfl
  · split
    · rfl
    · split
      · simp
      · rfl

/-- C7: with `gain = 0` the CLEAN loop is a no-op — after any number of
iterations the components are still identically zero and the residual is
still the dirty spectrum, for every dirty spectrum and PSF. -/
theorem clean_zero_gain_noop (M : ℕ) (amps psf : ℕ → ℂ) (n : ℕ) :
    (∀ k, (cleanRun ⟨M, amps, psf, 0⟩ n).components k = 0) ∧
    (∀ j, (cleanRun ⟨M, amps, psf, 0⟩ n).residual j = amps j) := by
  induction n with
  | zero => exact ⟨fun k => rfl, fun j => rfl⟩
  | succ m ih =>
    obtain ⟨ihc, ihr⟩ := ih
    constructor
    · intro k
      simp only [cleanRun, cleanStep]
      split
      · exact ihc k
      · split
        · exact ihc k
        · simp only [Complex.ofReal_zero, mul_zero]
          split
          · rw [add_zero]
            exact ihc k
          · exact ihc k
    · intro j
      have hstep := cleanStep_residual ⟨M, amps, psf, 0⟩ m (cleanRun ⟨M, amps, psf, 0⟩ m) j
      simp only [cleanRun]
      rw [hstep, subOf_zero_gain, sub_zero]
      exact ihr j

lemma cleanStep_of_isSome (cfg : CleanCfg) (i : ℕ) (st : CleanState)
    (h : st.halted.isSome) : cleanStep cfg i st = st := by
  simp [cleanStep, h]

/-- C4: if the loop reaches iteration `i` unbroken and the correction
denominator `temp` vanishes exactly there, the run terminates early
without fault: the diagnostic names iteration `i` and the components and
residual returned after any `n > i` iterations are exactly those at the
end of the last fully completed iteration, with no partial update from
iteration `i`. -/
theorem clean_degenerate_termination (cfg : CleanCfg) (n i : ℕ) (hin : i < n)
    (hnone : (cleanRun cfg i).halted = none)
    (htemp : tempOf cfg (cleanRun cfg i).residual = 0) :
    (cleanRun cfg n).halted = some i ∧
    (cleanRun cfg n).components = (cleanRun cfg i).components ∧
    (cleanRun cfg n).residual = (cleanRun cfg i).residual := by
  have hstep : cleanRun cfg (i + 1) = { cleanRun cfg i with halted := some i } := by
    simp only [cleanRun]
    unfold cleanStep
    rw [hnone]
    simp [htemp]
  have stable : ∀ m, i + 1 ≤ m → cleanRun cfg m = { cleanRun cfg i with halted := some i } := by
    intro m hm
    induction m with
    | zero => omega
    | succ p ih =>
      rcases Nat.eq_or_lt_of_le hm with heq | hlt
      · rw [← heq]
        exact hstep
      · have hp : i + 1 ≤ p := by omega
        have hrun := ih hp
        simp only [cleanRun]
        rw [hrun]
        exact cleanStep_of_isSome cfg p _ rfl
    
  have hfin := stable n hin
  rw [hfin]
  exact ⟨rfl, rfl, rfl⟩

/-- Witness for C4 at the concrete input `M = 1`, zero dirty spectrum,
constant-one PSF (so `|psf_coupling| = 1` and `temp = 0` at iteration
`0`), gain `1`, `n = 1` iteration. -/
theorem clean_degenerate_termination_witness :
    (cleanRun ⟨1, fun _ => 0, fun _ => 1, 1⟩ 1).halted = some 0 ∧
    (cleanRun ⟨1, fun _ => 0, fun _ => 1, 1⟩ 1).components =
      (cleanRun ⟨1, fun _ => 0, fun _ => 1, 1⟩ 0).components ∧
    (cleanRun ⟨1, fun _ => 0, fun _ => 1, 1⟩ 1).residual =
      (cleanRun ⟨1, fun _ => 0, fun _ => 1, 1⟩ 0).residual :=
  clean_degenerate_termination ⟨1, fun _ => 0, fun _ => 1, 1⟩ 1 0 (by decide) rfl
    (by
      show tempOf ⟨1, fun _ => 0, fun _ => 1, 1⟩ (fun _ => 0) = 0
      simp [tempOf, psfMagOf, idxMaxOf, cIdx, npArgmaxF, couplingIdx, npIndex])

/-- C10: since the code takes the real magnitude `m = |PSF[2·idx_max]|`
(whose imaginary part is identically zero) as the coupling value, the
correction it computes collapses to `aRe = res_amp.re / (1 + m)` and
`aIm = res_amp.im / (1 - m)` whenever `1 - m²` is nonzero: the code
resolves the spec's flagged ambiguity by discarding the coupling's
phase. -/
theorem clean_amplitude_real_magnitude (cfg : CleanCfg) (residual : ℕ → ℂ)
    (h : 1 - psfMagOf cfg residual ^ 2 ≠ 0) :
    aReOf cfg residual = (residual (idxMaxOf cfg.M residual)).re / (1 + psfMagOf cfg residual) ∧
    aImOf cfg residual = (residual (idxMaxOf cfg.M residual)).im / (1 - psfMagOf cfg residual) := by
  set m := psfMagOf cfg residual with hm
  have h1 : 1 + m ≠ 0 := by
    intro hc
    apply h
    have hmv : m = -1 := by linarith
    rw [hmv]
    ring
  have h2 : 1 - m ≠ 0 := by
    intro hc
    apply h
    have hmv : m = 1 := by linarith
    rw [hmv]
    ring
  unfold aReOf aImOf cleanARe cleanAIm
  rw [← hm]
  constructor
  · field_simp
    ring
  · field_simp
    ring

/-- Witness for C10 at the concrete input `M = 1`, zero dirty spectrum
and residual, zero PSF (so `m = 0` and `temp = 1 ≠ 0`), gain `1`. -/
theorem clean_amplitude_real_magnitude_witness :
    aReOf ⟨1, fun _ => 0, fun _ => 0, 1⟩ (fun _ => 0) =
      ((fun _ => (0 : ℂ)) (idxMaxOf 1 (fun _ => 0))).re /
        (1 + psfMagOf ⟨1, fun _ => 0, fun _ => 0, 1⟩ (fun _ => 0)) ∧
    aImOf ⟨1, fun _ => 0, fun _ => 0, 1⟩ (fun _ => 0) =
      ((fun _ => (0 : ℂ)) (idxMaxOf 1 (fun _ => 0))).im /
        (1 - psfMagOf ⟨1, fun _ => 0, fun _ => 0, 1⟩ (fun _ => 0)) :=
  clean_amplitude_real_magnitude ⟨1, fun _ => 0, fun _ => 0, 1⟩ (fun _ => 0)
    (by simp [psfMagOf, idxMaxOf, cIdx, npArgmaxF, couplingIdx, npIndex])

/-- Counterexample to C1 as stated: with `res_amp = i` and a purely
imaginary coupling `psf_coupling = i/2` (so `temp = 3/4 ≠ 0`), the `aRe`
the code computes from the real magnitude `|psf_coupling|` differs from
the claim's formula in which `psf_coupling` retains its complex phase
(`0` versus `-2/3`): the code does not keep the coupling's phase. -/
theorem clean_coupling_phase_cex :
    cleanARe Complex.I (Complex.abs (((1/2 : ℝ) : ℂ) * Complex.I)) ≠
      specARe Complex.I (((1/2 : ℝ) : ℂ) * Complex.I) := by
  have habs : Complex.abs (((1/2 : ℝ) : ℂ) * Complex.I) = 1/2 := by
    rw [map_mul, Complex.abs_ofReal, Complex.abs_I]
    norm_num
  unfold cleanARe specARe
  rw [habs]
  simp [Complex.mul_re, Complex.mul_im, Complex.I_re, Complex.I_im,
    Complex.ofReal_re, Complex.ofReal_im]
  norm_num

/-- C1 amended: in every CLEAN iteration the corrected peak amplitude is
given by the spec's formulas evaluated with `psf_coupling` replaced by
its real magnitude `m = |PSF[2·idx_max]|` — whose imaginary part is zero
and whose phase is discarded — not by the complex PSF value itself. -/
theorem clean_coupling_magnitude (cfg : CleanCfg) (residual : ℕ → ℂ) :
    aReOf cfg residual =
      specARe (residual (idxMaxOf cfg.M residual)) ((psfMagOf cfg residual : ℝ) : ℂ) ∧
    aImOf cfg residual =
      specAIm (residual (idxMaxOf cfg.M residual)) ((psfMagOf cfg residual : ℝ) : ℂ) := by
  have h0 : (0 : ℝ) ≤ psfMagOf cfg residual := Complex.abs.nonneg _
  unfold aReOf aImOf cleanARe cleanAIm specARe specAIm
  simp [Complex.abs_ofReal, abs_of_nonneg h0]
